import Mathlib

/-!
Shallow embedding of the xv6-derived console driver (`console.c`) and proofs
about its input line editor, blocking reader, screen (CGA) driver, output
multiplexer and formatted-output engine.

Machine integers: the C `uint` cursors of the input buffer are modelled as
`Nat` with arithmetic taken modulo `2 ^ 32` (`uinc`, `udec`), since the code
relies on unsigned wrap-around (e.g. `input.e--`).  The C `int` values fed to
the output paths are modelled as `Nat` codes (all codes that occur are
non-negative: bytes, the `BACKSPACE` marker `0x100` and the arrow markers
226..229).
-/

namespace Console

/-- Modulus of the C `uint` type. -/
def M : Nat := 2 ^ 32

/-- Unsigned 32-bit increment (`x++` on a `uint`). -/
def uinc (x : Nat) : Nat := (x + 1) % M

/-- Unsigned 32-bit decrement (`x--` on a `uint`): wraps at zero. -/
def udec (x : Nat) : Nat := (x + (M - 1)) % M

/-- `#define INPUT_BUF 128` — capacity of the input ring buffer. -/
def INPUT_BUF : Nat := 128

/-- `#define BUFF_SIZE 80` — screen width in columns. -/
def BUFF_SIZE : Nat := 80

/-- `#define BACKSPACE 0x100`. -/
def BACKSPACE : Nat := 0x100

/-- `#define LEFT 228`. -/
def LEFT : Nat := 228

/-- `#define RIGHT 229`. -/
def RIGHT : Nat := 229

/-- `#define UP 226`. -/
def UP : Nat := 226

/-- `#define DOWN 227`. -/
def DOWN : Nat := 227

/-- `#define C(x) ((x)-'@')` — control code of an upper-case letter
(given by its ASCII code, `'@' = 64`). -/
def ctrlCode (x : Nat) : Nat := x - 64

/-- State of `struct input`: the 128-cell character array and the four
`uint` cursors `r` (read), `w` (line start), `e` (edit), `max`
(write frontier).  Cells hold byte values (C `char` truncates stores
to 8 bits). -/
structure InputS where
  buf : List Nat
  r : Nat
  w : Nat
  e : Nat
  max : Nat
deriving DecidableEq, Repr

/-- Boot state: the array is a zero-initialised C static, all cursors 0. -/
def initInput : InputS :=
  { buf := List.replicate INPUT_BUF 0, r := 0, w := 0, e := 0, max := 0 }

/-- `memmove(input.buf + e + 1, input.buf + e, max - e)` on the 128-byte
array: cells `e+1 .. max` receive the previous contents of `e .. max-1`
(the insertion shift of the default case; indices are used unreduced, as in
the source, which keeps all cursors below `INPUT_BUF`). -/
def bufShiftUp (buf : List Nat) (e mx : Nat) : List Nat :=
  List.ofFn (fun i : Fin INPUT_BUF =>
    if e < i.val ∧ i.val ≤ mx then buf.getD (i.val - 1) 0 else buf.getD i.val 0)

/-- `memmove(input.buf + e, input.buf + e + 1, max - e)` (after the
decrements of the backspace case): cells `e .. max-1` receive the previous
contents of `e+1 .. max`. -/
def bufShiftDown (buf : List Nat) (e mx : Nat) : List Nat :=
  List.ofFn (fun i : Fin INPUT_BUF =>
    if e ≤ i.val ∧ i.val < mx then buf.getD (i.val + 1) 0 else buf.getD i.val 0)

/-- Body of the `C('U')` (kill line) loop of `consoleintr`:
`while(input.max != input.w && input.buf[(input.max-1) % INPUT_BUF] != '\n')
 { input.max--; input.e--; consputc(BACKSPACE); }`.
The fuel argument only bounds the number of iterations; `2 ^ 32` iterations
always suffice because `max` is decremented modulo `2 ^ 32` each round and
the loop stops at `max == w`. -/
def killLineGo : Nat → InputS → List Nat → InputS × List Nat
  | 0, st, echo => (st, echo)
  | fuel + 1, st, echo =>
    if st.max ≠ st.w ∧ st.buf.getD (udec st.max % INPUT_BUF) 0 ≠ 10 then
      killLineGo fuel { st with max := udec st.max, e := udec st.e }
        (echo ++ [BACKSPACE])
    else (st, echo)

/-- The `C('U')` case of `consoleintr`. -/
def killLine (st : InputS) : InputS × List Nat := killLineGo M st []

/-- The `'\r'` normalisation of the default case: `c = (c == '\r') ? '\n' : c`. -/
def normCR (c : Nat) : Nat := if c = 13 then 10 else c

/-- The state produced by the insertion of the default case (before the
line-release check): a non-newline character is inserted at the edit cursor
after shifting `e .. max-1` up; a newline is appended at the write
frontier. -/
def insertState (c1 : Nat) (st : InputS) : InputS :=
  if c1 ≠ 10 then
    { st with
      buf := (bufShiftUp st.buf st.e st.max).set (st.e % INPUT_BUF) (c1 % 256),
      e := uinc st.e, max := uinc st.max }
  else
    { st with
      buf := st.buf.set (st.max % INPUT_BUF) (c1 % 256),
      max := uinc st.max }

/-- The `default:` case of the `consoleintr` switch: ignore a zero code or a
full buffer (`input.max < INPUT_BUF` is the acceptance check), otherwise
normalise `'\r'`, insert, echo, and release the line (`w = max; e = max;`
plus a `wakeup`) when the character is a newline or `C('D')` or
`input.max == input.r + INPUT_BUF` now holds. -/
def insertDefault (c : Nat) (st : InputS) : InputS × List Nat :=
  if c ≠ 0 ∧ st.max < INPUT_BUF then
    if normCR c = 10 ∨ normCR c = ctrlCode 68 ∨
        (insertState (normCR c) st).max = (st.r + INPUT_BUF) % M then
      ({ insertState (normCR c) st with
          w := (insertState (normCR c) st).max,
          e := (insertState (normCR c) st).max }, [normCR c])
    else (insertState (normCR c) st, [normCR c])
  else (st, [])

/-- One iteration of the `switch(c)` of `consoleintr` for a single delivered
code `c ≥ 0`.  Returns the new buffer state together with the list of codes
echoed through `consputc`.  The `C('P')` case only sets the deferred
`doprocdump` flag, which lives outside the buffer state. -/
def consoleintrStep (c : Nat) (st : InputS) : InputS × List Nat :=
  if c = ctrlCode 80 then (st, [])
  else if c = ctrlCode 85 then killLine st
  else if c = ctrlCode 72 ∨ c = 0x7f then
    if st.e ≠ st.w then
      ({ st with max := udec st.max, e := udec st.e,
                 buf := bufShiftDown st.buf (udec st.e) (udec st.max) },
       [BACKSPACE])
    else (st, [])
  else if c = UP ∨ c = DOWN then (st, [c])
  else if c = LEFT then
    if st.e ≠ st.w then ({ st with e := udec st.e }, [c]) else (st, [])
  else if c = RIGHT then
    if st.e < st.max then ({ st with e := uinc st.e }, [c]) else (st, [])
  else insertDefault c st

/-- `consoleintr` applied to the whole batch of codes delivered by `getc`
(the list holds the successive non-negative codes). -/
def consoleintrRun : List Nat → InputS → InputS × List Nat
  | [], st => (st, [])
  | c :: cs, st =>
    let p1 := consoleintrStep c st
    let p2 := consoleintrRun cs p1.1
    (p2.1, p1.2 ++ p2.2)

/-- The `while(n > 0)` loop of `consoleread`.  Arguments: current state,
remaining `n`, the saved `target`, characters copied to `dst` so far.
Returns `none` when the loop would sleep (`input.r == input.w`, no
concurrent producer in this sequential model); otherwise the final state,
the copied characters and the final value of `n` (the call's result is
`target - n`). -/
def readLoop : InputS → Nat → Nat → List Nat → Option (InputS × List Nat × Nat)
  | st, 0, _, acc => some (st, acc, 0)
  | st, Nat.succ n, target, acc =>
    if st.r = st.w then none
    else if st.buf.getD (st.r % INPUT_BUF) 0 = ctrlCode 68 then
      if Nat.succ n < target then
        some ({ st with r := udec (uinc st.r) }, acc, Nat.succ n)
      else some ({ st with r := uinc st.r }, acc, Nat.succ n)
    else if st.buf.getD (st.r % INPUT_BUF) 0 = 10 then
      some ({ st with r := uinc st.r },
            acc ++ [st.buf.getD (st.r % INPUT_BUF) 0], n)
    else
      readLoop { st with r := uinc st.r } n target
        (acc ++ [st.buf.getD (st.r % INPUT_BUF) 0])

/-- `consoleread` for a request of `n` bytes (the `iunlock`/`ilock`
bracketing and the `killed` abort concern collaborators outside this model;
`target = n`). -/
def consoleread (st : InputS) (n : Nat) : Option (InputS × List Nat × Nat) :=
  readLoop st n n []

/-- The `k` buffer cells read from the cursor position `r` on (each index
reduced modulo the capacity, as every buffer access is). -/
def lineChars (buf : List Nat) : Nat → Nat → List Nat
  | _, 0 => []
  | r, k + 1 => buf.getD (r % INPUT_BUF) 0 :: lineChars buf (r + 1) k

/-- An operation applied to the input ring buffer: a delivered key code
(one `consoleintr` switch iteration) or a `consoleread` call for `n`
bytes. -/
inductive Op where
  | key (c : Nat)
  | read (n : Nat)
deriving DecidableEq, Repr

/-- Effect of one operation on the buffer state; `none` when a read would
block. -/
def applyOp : Op → InputS → Option InputS
  | .key c, st => some (consoleintrStep c st).1
  | .read n, st => (consoleread st n).map (fun x => x.1)

/-- Run a sequence of operations from a state. -/
def runOps : List Op → InputS → Option InputS
  | [], st => some st
  | op :: ops, st => (applyOp op st).bind (runOps ops)

/-- The spec's cursor invariant `r ≤ w ≤ e ≤ max ≤ r + CAP`. -/
def inv (st : InputS) : Prop :=
  st.r ≤ st.w ∧ st.w ≤ st.e ∧ st.e ≤ st.max ∧ st.max ≤ st.r + INPUT_BUF

instance (st : InputS) : Decidable (inv st) := by
  unfold inv; infer_instance

/-- Strengthened cursor invariant actually maintained by the code: the
write frontier additionally never exceeds the absolute capacity
(`input.max < INPUT_BUF` is the acceptance check of the default case). -/
def invStrong (st : InputS) : Prop :=
  st.r ≤ st.w ∧ st.w ≤ st.e ∧ st.e ≤ st.max ∧ st.max ≤ INPUT_BUF

instance (st : InputS) : Decidable (invStrong st) := by
  unfold invStrong; infer_instance

/-- A run is good when every kill-line is issued while the edit cursor sits
at the write frontier (`e = max`, i.e. the cursor was not moved left). -/
def goodRunB : List Op → InputS → Bool
  | [], _ => true
  | op :: ops, st =>
    (decide (op = Op.key (ctrlCode 85) → st.e = st.max)) &&
      (match applyOp op st with
       | none => true
       | some st1 => goodRunB ops st1)

/-! ### Screen driver (`cgaputc`) -/

/-- State of the CGA hardware as seen by `cgaputc`: the cursor offset held
by the two index registers (`col + 80*row`) and the video memory `crt`
(a cell per offset; values are the 16-bit cell words). -/
structure CgaS where
  pos : Nat
  crt : Nat → Nat

/-- The character-specific mutation at the top of `cgaputc` (before the
bounds check and the scroll).  `pos` is a C `int`; every decrement is
guarded by `pos > 0`, so `Nat` is faithful.  The two `memmove` lengths
`24*BUFF_SIZE - pos` are non-negative whenever `pos ≤ 1920`; `Nat`
subtraction makes the moved region empty otherwise. -/
def cgaMutate (c : Nat) (st : CgaS) : CgaS :=
  if c = 10 then
    { st with pos := st.pos + (BUFF_SIZE - st.pos % BUFF_SIZE) }
  else if c = BACKSPACE then
    if st.pos > 0 then
      let p1 := st.pos - 1
      { pos := p1,
        crt := fun i => if p1 ≤ i ∧ i < 24 * BUFF_SIZE then st.crt (i + 1) else st.crt i }
    else st
  else if c = LEFT then
    if st.pos > 0 then { st with pos := st.pos - 1 } else st
  else if c = RIGHT then
    { st with pos := st.pos + 1 }
  else if c = UP ∨ c = DOWN then st
  else
    let g1 := fun i =>
      if st.pos + 1 ≤ i ∧ i ≤ 24 * BUFF_SIZE then st.crt (i - 1) else st.crt i
    { pos := st.pos + 1,
      crt := fun i => if i = st.pos then (c % 256) ||| 0x0700 else g1 i }

/-- The scroll of `cgaputc`: `memmove(crt, crt+80, 2*23*80)` (rows 1..23
into rows 0..22) followed by `memset(crt+pos, 0, 2*(24*80 - pos))` with the
already-decremented `pos`. -/
def scrollCrt (g : Nat → Nat) (pos : Nat) : Nat → Nat :=
  let g1 := fun i => if i < 23 * BUFF_SIZE then g (i + BUFF_SIZE) else g i
  fun i => if pos ≤ i ∧ i < 24 * BUFF_SIZE then 0 else g1 i

/-- `cgaputc c`: mutate, panic (`none`) when the offset leaves
`[0, 25*BUFF_SIZE]`, scroll when the row index reaches 24, and write the
offset back.  The boolean records whether the scroll branch fired. -/
def cgaputc (c : Nat) (st : CgaS) : Option (CgaS × Bool) :=
  if (cgaMutate c st).pos > 25 * BUFF_SIZE then none
  else if (cgaMutate c st).pos / BUFF_SIZE ≥ 24 then
    some ({ pos := (cgaMutate c st).pos - BUFF_SIZE,
            crt := scrollCrt (cgaMutate c st).crt ((cgaMutate c st).pos - BUFF_SIZE) },
          true)
  else some (cgaMutate c st, false)

/-- A sequence of `cgaputc` calls, counting how many of them scrolled;
`none` once any call panics. -/
def runCga : List Nat → CgaS → Option (CgaS × Nat)
  | [], st => some (st, 0)
  | c :: cs, st =>
    match cgaputc c st with
    | none => none
    | some (st1, b) =>
      match runCga cs st1 with
      | none => none
      | some (st2, k) => some (st2, (if b then 1 else 0) + k)

/-! ### Output multiplexer (`consputc`) -/

/-- `consputc c` under the given `panicked` flag: `none` models the
interrupt-disable-and-spin of the panicked path; otherwise the pair of the
bytes written to the serial transport (`uartputc`) and the single character
forwarded to the screen driver (`cgaputc`). -/
def consputc (panicked : Bool) (c : Nat) : Option (List Nat × Nat) :=
  if panicked then none
  else if c = BACKSPACE then some ([8, 32, 8], c)
  else if c ≠ UP ∧ c ≠ DOWN ∧ c ≠ LEFT ∧ c ≠ RIGHT then some ([c], c)
  else some ([], c)

/-! ### Formatted output engine (`printint`, `cprintf`) -/

/-- `static char digits[] = "0123456789abcdef"` as byte codes. -/
def hexDigits : List Nat :=
  [48, 49, 50, 51, 52, 53, 54, 55, 56, 57, 97, 98, 99, 100, 101, 102]

/-- The `do { buf[i++] = digits[x % base]; } while((x /= base) != 0)` loop
of `printint`, building the digit bytes least significant first.  Fuel 40
covers every value below `2 ^ 32` for the bases the source uses (10, 16);
the loop runs at least once, so 0 still yields one digit. -/
def printintGo : Nat → Nat → Nat → List Nat → List Nat
  | 0, _, _, buf => buf
  | fuel + 1, x, base, buf =>
    let buf1 := buf ++ [hexDigits.getD (x % base) 0]
    if x / base = 0 then buf1 else printintGo fuel (x / base) base buf1

/-- `printint(xx, base, sign)`: the emitted bytes.  A negative signed value
is negated into the `uint` (i.e. taken modulo `2 ^ 32`); the digit buffer
is drained most significant first, after appending the sign. -/
def printint (xx : Int) (base : Nat) (sign : Bool) : List Nat :=
  let neg := sign ∧ xx < 0
  let x : Nat := if neg then ((-xx) % (2 ^ 32 : Int)).toNat
                 else (xx % (2 ^ 32 : Int)).toNat
  let buf := printintGo 40 x base []
  (if neg then buf ++ [45] else buf).reverse

/-- A variadic argument of `cprintf`: an integer, or a string pointer
(`none` is the null pointer). -/
inductive Varg where
  | int (i : Int)
  | str (s : Option (List Nat))
deriving DecidableEq, Repr

/-- `*argp++` read as an integer.  Reading past the supplied arguments or
reading a pointer slot as an integer is undefined in C; modelled as 0. -/
def vargInt : List Varg → Int
  | .int i :: _ => i
  | _ => 0

/-- `*argp++` read as a `char*`.  Reading past the supplied arguments or
reading an integer slot as a pointer is undefined in C; modelled as null. -/
def vargStr : List Varg → Option (List Nat)
  | .str s :: _ => s
  | _ => none

/-- The literal `"(null)"` substituted for a null `%s` argument. -/
def nullBytes : List Nat := [40, 110, 117, 108, 108, 41]

/-- The scan loop of `cprintf`: the bytes emitted through `consputc`.
`fmt` holds the bytes of the format string (a 0 byte acts as the C string
terminator, mirroring `(c = fmt[i] & 0xff) != 0` and the `if(c == 0) break`
after `%`); `args` are the variadic arguments, one consumed per
`%d`/`%x`/`%p`/`%s`. -/
def cprintfGo : List Nat → List Varg → List Nat
  | [], _ => []
  | b :: rest, args =>
    let c := b % 256
    if c = 0 then []
    else if c ≠ 37 then c :: cprintfGo rest args
    else
      match rest with
      | [] => []
      | b2 :: rest2 =>
        let d := b2 % 256
        if d = 0 then []
        else if d = 100 then printint (vargInt args) 10 true ++ cprintfGo rest2 args.tail
        else if d = 120 ∨ d = 112 then printint (vargInt args) 16 false ++ cprintfGo rest2 args.tail
        else if d = 115 then
          (match vargStr args with
           | none => nullBytes
           | some s => s.takeWhile (fun x => x ≠ 0)) ++ cprintfGo rest2 args.tail
        else if d = 37 then 37 :: cprintfGo rest2 args
        else 37 :: d :: cprintfGo rest2 args

/-! ### Arithmetic helpers for the 32-bit cursor operations -/

theorem uinc_small (x : Nat) (h : x + 1 < M) : uinc x = x + 1 := by
  unfold uinc
  exact Nat.mod_eq_of_lt h

theorem udec_small (x : Nat) (h1 : 1 ≤ x) (h2 : x < M) : udec x = x - 1 := by
  unfold udec M at *
  omega

theorem udec_uinc (x : Nat) (h : x + 1 < M) : udec (uinc x) = x := by
  rw [uinc_small x h, udec_small (x + 1) (by omega) h]
  omega

theorem M_large : 2 ^ 20 < M := by unfold M; norm_num

theorem le_capacity_lt_M (x : Nat) (h : x ≤ INPUT_BUF) : x + 1 < M := by
  unfold INPUT_BUF at h
  unfold M
  omega

theorem uinc_cap (x : Nat) (h : x ≤ INPUT_BUF) : uinc x = x + 1 :=
  uinc_small x (le_capacity_lt_M x h)

theorem udec_cap (x : Nat) (h1 : 1 ≤ x) (h2 : x ≤ INPUT_BUF) : udec x = x - 1 :=
  udec_small x h1 (by have := le_capacity_lt_M x h2; omega)

/-! ### Invariant preservation for the input editor -/

/-- The kill-line loop preserves the strengthened invariant when it starts
with the edit cursor at the write frontier. -/
theorem killLineGo_invStrong (fuel : Nat) :
    ∀ st echo, invStrong st → st.e = st.max →
      invStrong (killLineGo fuel st echo).1 := by
  induction fuel with
  | zero => intro st echo h _; exact h
  | succ n ih =>
    intro st echo h he
    obtain ⟨h1, h2, h3, h4⟩ := h
    unfold killLineGo
    split_ifs with hc
    · obtain ⟨hmw, -⟩ := hc
      have hwm : st.w < st.max := by omega
      have hub : udec st.max = st.max - 1 :=
        udec_small _ (by omega) (by have := le_capacity_lt_M st.max h4; omega)
      apply ih
      · refine ⟨h1, ?_, ?_, ?_⟩ <;> simp only [he, hub] <;> omega
      · simp [he]
    · exact ⟨h1, h2, h3, h4⟩

/-- The default (insertion) case preserves the strengthened invariant. -/
theorem insertDefault_invStrong (c : Nat) (st : InputS) (h : invStrong st) :
    invStrong (insertDefault c st).1 := by
  obtain ⟨h1, h2, h3, h4⟩ := h
  unfold insertDefault
  split_ifs with hacc hrel
  · obtain ⟨-, hcap⟩ := hacc
    have hsmax : (insertState (normCR c) st).max = st.max + 1 := by
      unfold insertState
      split_ifs <;> exact uinc_cap st.max (by omega)
    have hsr : (insertState (normCR c) st).r = st.r := by
      unfold insertState
      split_ifs <;> rfl
    show (insertState (normCR c) st).r ≤ (insertState (normCR c) st).max ∧
      (insertState (normCR c) st).max ≤ (insertState (normCR c) st).max ∧
      (insertState (normCR c) st).max ≤ (insertState (normCR c) st).max ∧
      (insertState (normCR c) st).max ≤ INPUT_BUF
    rw [hsmax, hsr]
    omega
  · obtain ⟨-, hcap⟩ := hacc
    unfold insertState
    split_ifs with hnl
    · show st.r ≤ st.w ∧ st.w ≤ uinc st.e ∧ uinc st.e ≤ uinc st.max ∧
        uinc st.max ≤ INPUT_BUF
      rw [uinc_cap st.e (by omega), uinc_cap st.max (by omega)]
      omega
    · show st.r ≤ st.w ∧ st.w ≤ st.e ∧ st.e ≤ uinc st.max ∧
        uinc st.max ≤ INPUT_BUF
      rw [uinc_cap st.max (by omega)]
      omega
  · exact ⟨h1, h2, h3, h4⟩

/-- One `consoleintr` switch iteration preserves the strengthened
invariant, provided a kill-line only fires while `e = max`. -/
theorem consoleintrStep_invStrong (c : Nat) (st : InputS) (h : invStrong st)
    (hku : c = ctrlCode 85 → st.e = st.max) :
    invStrong (consoleintrStep c st).1 := by
  obtain ⟨h1, h2, h3, h4⟩ := h
  unfold consoleintrStep
  split_ifs with hP hU hH hew hUD hL hew2 hR hlt
  · exact ⟨h1, h2, h3, h4⟩
  · exact killLineGo_invStrong M st [] ⟨h1, h2, h3, h4⟩ (hku hU)
  · show invStrong
      ({ st with max := udec st.max, e := udec st.e,
                 buf := bufShiftDown st.buf (udec st.e) (udec st.max) } : InputS)
    show st.r ≤ st.w ∧ st.w ≤ udec st.e ∧ udec st.e ≤ udec st.max ∧
      udec st.max ≤ INPUT_BUF
    rw [udec_cap st.e (by omega) (by omega), udec_cap st.max (by omega) h4]
    omega
  · exact ⟨h1, h2, h3, h4⟩
  · exact ⟨h1, h2, h3, h4⟩
  · show invStrong ({ st with e := udec st.e } : InputS)
    show st.r ≤ st.w ∧ st.w ≤ udec st.e ∧ udec st.e ≤ st.max ∧
      st.max ≤ INPUT_BUF
    rw [udec_cap st.e (by omega) (by omega)]
    omega
  · exact ⟨h1, h2, h3, h4⟩
  · show invStrong ({ st with e := uinc st.e } : InputS)
    show st.r ≤ st.w ∧ st.w ≤ uinc st.e ∧ uinc st.e ≤ st.max ∧
      st.max ≤ INPUT_BUF
    rw [uinc_cap st.e (by omega)]
    omega
  · exact ⟨h1, h2, h3, h4⟩
  · exact insertDefault_invStrong c st ⟨h1, h2, h3, h4⟩

/-- Every iteration of the `consoleread` loop preserves the strengthened
invariant (each consume step moves `r` forward only below `w`, and the
EOF push-back restores the previous `r`). -/
theorem readLoop_invStrong :
    ∀ (n : Nat) (st : InputS) (target : Nat) (acc : List Nat)
      (st1 : InputS) (out : List Nat) (n1 : Nat),
      invStrong st → readLoop st n target acc = some (st1, out, n1) →
      invStrong st1 := by
  intro n
  induction n with
  | zero =>
    intro st target acc st1 out n1 h heq
    unfold readLoop at heq
    simp only [Option.some.injEq, Prod.mk.injEq] at heq
    obtain ⟨a, -, -⟩ := heq
    exact a ▸ h
  | succ n ih =>
    intro st target acc st1 out n1 h heq
    obtain ⟨h1, h2, h3, h4⟩ := h
    have hrM : st.r + 1 < M := le_capacity_lt_M st.r (by omega)
    rw [readLoop.eq_2] at heq
    by_cases hrw : st.r = st.w
    · rw [if_pos hrw] at heq
      exact absurd heq (by simp)
    rw [if_neg hrw] at heq
    by_cases heof : st.buf.getD (st.r % INPUT_BUF) 0 = ctrlCode 68
    · rw [if_pos heof] at heq
      by_cases hnt : Nat.succ n < target
      · rw [if_pos hnt] at heq
        simp only [Option.some.injEq, Prod.mk.injEq] at heq
        obtain ⟨ha, -⟩ := heq
        rw [← ha]
        show udec (uinc st.r) ≤ st.w ∧ st.w ≤ st.e ∧ st.e ≤ st.max ∧
          st.max ≤ INPUT_BUF
        rw [udec_uinc st.r hrM]
        omega
      · rw [if_neg hnt] at heq
        simp only [Option.some.injEq, Prod.mk.injEq] at heq
        obtain ⟨ha, -⟩ := heq
        rw [← ha]
        show uinc st.r ≤ st.w ∧ st.w ≤ st.e ∧ st.e ≤ st.max ∧ st.max ≤ INPUT_BUF
        rw [uinc_small st.r hrM]
        omega
    rw [if_neg heof] at heq
    by_cases hnl : st.buf.getD (st.r % INPUT_BUF) 0 = 10
    · rw [if_pos hnl] at heq
      simp only [Option.some.injEq, Prod.mk.injEq] at heq
      obtain ⟨ha, -⟩ := heq
      rw [← ha]
      show uinc st.r ≤ st.w ∧ st.w ≤ st.e ∧ st.e ≤ st.max ∧ st.max ≤ INPUT_BUF
      rw [uinc_small st.r hrM]
      omega
    rw [if_neg hnl] at heq
    refine ih _ target _ st1 out n1 ?_ heq
    show uinc st.r ≤ st.w ∧ st.w ≤ st.e ∧ st.e ≤ st.max ∧ st.max ≤ INPUT_BUF
    rw [uinc_small st.r hrM]
    omega

/-- Running any good sequence of operations preserves the strengthened
invariant. -/
theorem runOps_invStrong :
    ∀ (ops : List Op) (st : InputS), invStrong st → goodRunB ops st = true →
      ∀ st1, runOps ops st = some st1 → invStrong st1 := by
  intro ops
  induction ops with
  | nil =>
    intro st h _ st1 heq
    unfold runOps at heq
    simp only [Option.some.injEq] at heq
    exact heq ▸ h
  | cons op rest ih =>
    intro st h hg st1 heq
    unfold goodRunB at hg
    rw [Bool.and_eq_true] at hg
    obtain ⟨hg1, hg2⟩ := hg
    have hg1' := of_decide_eq_true hg1
    unfold runOps at heq
    cases hop : applyOp op st with
    | none => rw [hop] at heq; exact absurd heq (by simp)
    | some st2 =>
      rw [hop] at heq
      have heq2 : runOps rest st2 = some st1 := heq
      have hg2' : goodRunB rest st2 = true := by rw [hop] at hg2; exact hg2
      have hinv2 : invStrong st2 := by
        cases op with
        | key c =>
          rw [show applyOp (Op.key c) st = some (consoleintrStep c st).1 from rfl]
            at hop
          simp only [Option.some.injEq] at hop
          rw [← hop]
          exact consoleintrStep_invStrong c st h
            (fun hc => hg1' (by rw [hc]))
        | read n =>
          rw [show applyOp (Op.read n) st =
              (consoleread st n).map (fun x => x.1) from rfl] at hop
          cases hread : consoleread st n with
          | none => rw [hread] at hop; exact absurd hop (by simp)
          | some x =>
            rw [hread] at hop
            simp only [Option.map_some', Option.some.injEq] at hop
            unfold consoleread at hread
            have hlp := readLoop_invStrong n st n [] x.1 x.2.1 x.2.2 h
              (by rw [hread])
            exact hop ▸ hlp
      exact ih st2 hinv2 hg2' st1 heq2

/-! ### C5: scrolling on consecutive newlines -/

/-- A newline write whose advanced offset stays below row 24 does not
scroll: the offset snaps to the next multiple of `BUFF_SIZE` and the
screen contents are untouched. -/
theorem cgaputc_newline_noscroll (g : Nat → Nat) (p : Nat)
    (h : p + (BUFF_SIZE - p % BUFF_SIZE) < 24 * BUFF_SIZE) :
    cgaputc 10 { pos := p, crt := g } =
      some ({ pos := p + (BUFF_SIZE - p % BUFF_SIZE), crt := g }, false) := by
  have hpos : (cgaMutate 10 { pos := p, crt := g }).pos
      = p + (BUFF_SIZE - p % BUFF_SIZE) := rfl
  unfold cgaputc
  rw [hpos]
  rw [if_neg (by unfold BUFF_SIZE at *; omega),
      if_neg (by unfold BUFF_SIZE at *; omega)]
  rfl

/-- A newline write whose advanced offset reaches row 24 scrolls: the
offset is pulled back one row and the screen is shifted and cleared by
`scrollCrt`. -/
theorem cgaputc_newline_scroll (g : Nat → Nat) (p : Nat)
    (h1 : 24 * BUFF_SIZE ≤ p + (BUFF_SIZE - p % BUFF_SIZE))
    (h2 : p + (BUFF_SIZE - p % BUFF_SIZE) ≤ 25 * BUFF_SIZE) :
    cgaputc 10 { pos := p, crt := g } =
      some ({ pos := p + (BUFF_SIZE - p % BUFF_SIZE) - BUFF_SIZE,
              crt := scrollCrt g (p + (BUFF_SIZE - p % BUFF_SIZE) - BUFF_SIZE) },
            true) := by
  have hpos : (cgaMutate 10 { pos := p, crt := g }).pos
      = p + (BUFF_SIZE - p % BUFF_SIZE) := rfl
  have hcrt : (cgaMutate 10 { pos := p, crt := g }).crt = g := rfl
  unfold cgaputc
  rw [hpos, hcrt]
  rw [if_neg (by unfold BUFF_SIZE at *; omega),
      if_pos (by unfold BUFF_SIZE at *; omega)]

/-- Unfolding `runCga` on a cons once the head call is known. -/
theorem runCga_cons_of_step (c : Nat) (cs : List Nat) (st st1 : CgaS) (b : Bool)
    (h : cgaputc c st = some (st1, b)) :
    runCga (c :: cs) st =
      match runCga cs st1 with
      | none => none
      | some (st2, k) => some (st2, (if b then 1 else 0) + k) := by
  conv_lhs => rw [runCga]
  rw [h]

/-- `k` consecutive newlines from offset `j*BUFF_SIZE` with `j + k = 24`:
the first `k - 1` advance the cursor one row each without scrolling, and
the last one scrolls exactly once, leaving the cursor at `23*BUFF_SIZE`
over the shifted-and-cleared screen. -/
theorem runCga_newlines (g : Nat → Nat) (k j : Nat) (hjk : j + k = 24)
    (hj : j ≤ 23) :
    runCga (List.replicate k 10) { pos := j * BUFF_SIZE, crt := g } =
      some ({ pos := 23 * BUFF_SIZE, crt := scrollCrt g (23 * BUFF_SIZE) },
            1) := by
  induction k generalizing j with
  | zero => omega
  | succ k ih =>
    rw [List.replicate_succ]
    by_cases hk : k = 0
    · subst hk
      have hj23 : j = 23 := by omega
      subst hj23
      rw [runCga_cons_of_step 10 (List.replicate 0 10) _ _ _
          (cgaputc_newline_scroll g (23 * BUFF_SIZE) (by decide) (by decide))]
      rfl
    · have harith : j * BUFF_SIZE + (BUFF_SIZE - j * BUFF_SIZE % BUFF_SIZE)
          = (j + 1) * BUFF_SIZE := by
        unfold BUFF_SIZE; omega
      rw [runCga_cons_of_step 10 (List.replicate k 10) _ _ _
          (cgaputc_newline_noscroll g (j * BUFF_SIZE)
            (by unfold BUFF_SIZE at *; omega))]
      rw [harith, ih (j + 1) (by omega) (by omega)]
      rfl

/-- C5 (corrected): from offset 0, 24 consecutive newline writes trigger
exactly one scroll, at the moment the cursor's row reaches 24; after it
row 0 holds the previous contents of row 1, row 24 — which the driver
never writes — is still blank when it was blank before, and the offset has
been reduced by one row's width (to `23*80`).  The scroll copies rows 1..23
into rows 0..22 and clears from the cursor position to the end of row 23
(not rows 1..24 / row 24, and the claim's 25 newlines trigger a second
scroll — see the counterexample). -/
theorem cga_scroll_24_newlines (g : Nat → Nat)
    (hblank : ∀ i, 24 * BUFF_SIZE ≤ i → i < 25 * BUFF_SIZE → g i = 0) :
    runCga (List.replicate 24 10) { pos := 0, crt := g } =
      some ({ pos := 23 * BUFF_SIZE, crt := scrollCrt g (23 * BUFF_SIZE) },
            1) ∧
    (∀ col, col < BUFF_SIZE →
      scrollCrt g (23 * BUFF_SIZE) col = g (BUFF_SIZE + col)) ∧
    (∀ i, 24 * BUFF_SIZE ≤ i → i < 25 * BUFF_SIZE →
      scrollCrt g (23 * BUFF_SIZE) i = 0) := by
  refine ⟨?_, ?_, ?_⟩
  · have h := runCga_newlines g 24 0 rfl (by omega)
    exact h
  · intro col hcol
    show (if 23 * BUFF_SIZE ≤ col ∧ col < 24 * BUFF_SIZE then 0
          else if col < 23 * BUFF_SIZE then g (col + BUFF_SIZE) else g col) =
      g (BUFF_SIZE + col)
    unfold BUFF_SIZE at *
    rw [if_neg (by omega), if_pos (by omega), Nat.add_comm]
  · intro i hi1 hi2
    show (if 23 * BUFF_SIZE ≤ i ∧ i < 24 * BUFF_SIZE then 0
          else if i < 23 * BUFF_SIZE then g (i + BUFF_SIZE) else g i) = 0
    unfold BUFF_SIZE at *
    rw [if_neg (by omega), if_neg (by omega)]
    exact hblank i (by omega) (by omega)

/-- Counterexample for C5: 25 consecutive newline writes from offset 0
trigger exactly two scrolls (the 24th newline moves the cursor into row 24
and scrolls; the 25th does so again), not one. -/
theorem cga_25_newlines_two_scrolls :
    (runCga (List.replicate 25 10) { pos := 0, crt := fun _ => 0 }).map
        (fun x => x.2) = some 2 ∧
    ¬((runCga (List.replicate 25 10) { pos := 0, crt := fun _ => 0 }).map
        (fun x => x.2) = some 1) := by
  constructor
  · rfl
  · intro h
    rw [show (runCga (List.replicate 25 10)
        { pos := 0, crt := fun _ => 0 }).map (fun x => x.2) = some 2
      from rfl] at h
    exact absurd (Option.some.inj h) (by decide)

/-- Witness for C5 at the all-blank screen. -/
theorem cga_scroll_24_newlines_witness :
    runCga (List.replicate 24 10) { pos := 0, crt := fun _ => 0 } =
      some ({ pos := 23 * BUFF_SIZE,
              crt := scrollCrt (fun _ => 0) (23 * BUFF_SIZE) }, 1) ∧
    (∀ col, col < BUFF_SIZE →
      scrollCrt (fun _ => 0) (23 * BUFF_SIZE) col = 0) := by
  have h := cga_scroll_24_newlines (fun _ => 0) (fun i h1 h2 => rfl)
  exact ⟨h.1, fun col hcol => h.2.1 col hcol⟩

/-! ### C6: screen-driver offset safety -/

/-- C6 (confirmed): after every screen-driver mutation the written-back
cursor offset lies within `[0, 2000]` (`Nat` excludes negatives; `2000 =
25*BUFF_SIZE`), and a mutation whose offset would leave that range makes
`cgaputc` take the fatal panic path (`none`) instead of writing the offset
back; in particular the unclamped right-arrow increment from offset 2000
panics. -/
theorem cgaputc_offset_safe :
    (∀ c st st1 b, cgaputc c st = some (st1, b) → st1.pos ≤ 25 * BUFF_SIZE) ∧
    (∀ g : Nat → Nat, cgaputc RIGHT { pos := 25 * BUFF_SIZE, crt := g } = none) := by
  constructor
  · intro c st st1 b h
    unfold cgaputc at h
    split_ifs at h with h1 h2
    · simp only [Option.some.injEq, Prod.mk.injEq] at h
      obtain ⟨h3, -⟩ := h
      subst h3
      simp only []
      omega
    · simp only [Option.some.injEq, Prod.mk.injEq] at h
      obtain ⟨h3, -⟩ := h
      subst h3
      omega
  · intro g
    rfl

/-- Witness for C6: a newline at offset 0 yields offset 80 ≤ 2000, and the
right arrow at offset 2000 panics. -/
theorem cgaputc_offset_safe_witness :
    (({ pos := 80, crt := fun _ => 0 } : CgaS).pos ≤ 25 * BUFF_SIZE) ∧
    cgaputc RIGHT { pos := 25 * BUFF_SIZE, crt := fun _ => 0 } = none :=
  ⟨cgaputc_offset_safe.1 10 { pos := 0, crt := fun _ => 0 }
      { pos := 80, crt := fun _ => 0 } false rfl,
   cgaputc_offset_safe.2 (fun _ => 0)⟩

/-! ### C7: output-multiplexer routing -/

/-- C7 (confirmed): when not panicked, `consputc` sends the
backspace-space-backspace triplet to the serial transport for the backspace
marker, sends nothing for the four arrow markers, and sends the character
itself otherwise; in every case the character is forwarded to the screen
driver. -/
theorem consputc_routing (c : Nat) :
    (c = BACKSPACE → consputc false c = some ([8, 32, 8], c)) ∧
    ((c = UP ∨ c = DOWN ∨ c = LEFT ∨ c = RIGHT) → consputc false c = some ([], c)) ∧
    (c ≠ BACKSPACE → ¬(c = UP ∨ c = DOWN ∨ c = LEFT ∨ c = RIGHT) →
      consputc false c = some ([c], c)) := by
  refine ⟨fun h => by subst h; rfl, fun h => ?_, fun h1 h2 => ?_⟩
  · rcases h with h | h | h | h <;> subst h <;> rfl
  · push_neg at h2
    obtain ⟨hu, hd, hl, hr⟩ := h2
    simp [consputc, h1, hu, hd, hl, hr]

/-- Witness for C7 at the backspace marker, an arrow marker and a plain
byte. -/
theorem consputc_routing_witness :
    consputc false BACKSPACE = some ([8, 32, 8], BACKSPACE) ∧
    consputc false UP = some ([], UP) ∧
    consputc false 65 = some ([65], 65) :=
  ⟨(consputc_routing BACKSPACE).1 rfl,
   (consputc_routing UP).2.1 (Or.inl rfl),
   (consputc_routing 65).2.2 (by decide) (by decide)⟩

/-! ### C8: no-op editor cases -/

/-- C8 (confirmed): in `consoleintr`, a backspace code (`C('H')` or 0x7f)
with `e = w`, a left arrow with `e = w`, and a right arrow with `e = max`
all leave the buffer state unchanged and echo nothing. -/
theorem consoleintr_noops (st : InputS) :
    (st.e = st.w →
      consoleintrStep (ctrlCode 72) st = (st, []) ∧
      consoleintrStep 0x7f st = (st, []) ∧
      consoleintrStep LEFT st = (st, [])) ∧
    (st.e = st.max → consoleintrStep RIGHT st = (st, [])) := by
  constructor
  · intro h
    refine ⟨?_, ?_, ?_⟩ <;>
      simp [consoleintrStep, ctrlCode, LEFT, RIGHT, UP, DOWN, h]
  · intro h
    simp [consoleintrStep, ctrlCode, LEFT, RIGHT, UP, DOWN, h]

/-- Witness for C8 at the boot state (`e = w = max = 0`). -/
theorem consoleintr_noops_witness :
    (consoleintrStep (ctrlCode 72) initInput = (initInput, []) ∧
      consoleintrStep 0x7f initInput = (initInput, []) ∧
      consoleintrStep LEFT initInput = (initInput, [])) ∧
    consoleintrStep RIGHT initInput = (initInput, []) :=
  ⟨(consoleintr_noops initInput).1 rfl, (consoleintr_noops initInput).2 rfl⟩

/-- A byte that is neither the terminator nor `%` is emitted literally and
the scan continues. -/
theorem cprintfGo_literal (b : Nat) (rest : List Nat) (args : List Varg)
    (h0 : b % 256 ≠ 0) (h37 : b % 256 ≠ 37) :
    cprintfGo (b :: rest) args = b % 256 :: cprintfGo rest args := by
  cases rest with
  | nil => rw [cprintfGo.eq_2, if_neg h0, if_pos h37]
  | cons y ys => rw [cprintfGo.eq_3, if_neg h0, if_pos h37]

/-! ### C1: the cursor invariant of the input ring buffer -/

/-- C1 (corrected): the invariant `r ≤ w ≤ e ≤ max ≤ r + CAP` holds after
every sequence of editor operations and read calls from the boot state
PROVIDED each kill-line fires while the edit cursor is at the write
frontier (`e = max`); since the theorem quantifies over all such sequences,
it holds after every prefix, i.e. after every operation.  The claim as
stated — with kill-line unrestricted — is false: kill-line decrements `e`
together with `max` even when `e < max`, wrapping `e` below `w` (see the
counterexample). -/
theorem inputRing_invariant_good_runs (ops : List Op) (st1 : InputS)
    (hgood : goodRunB ops initInput = true)
    (hrun : runOps ops initInput = some st1) : inv st1 := by
  have h := runOps_invStrong ops initInput (by decide) hgood st1 hrun
  obtain ⟨a, b, c, d⟩ := h
  exact ⟨a, b, c, by omega⟩

set_option maxRecDepth 100000 in
/-- Counterexample for C1: typing `'a'`, then left arrow, then kill-line
(`C('U')`) drives `e` to `2^32 - 1` while `max = w = 0`: the invariant
`w ≤ e ≤ max` is violated (`e ≤ max` fails). -/
theorem inputRing_invariant_counterexample :
    runOps [Op.key 97, Op.key LEFT, Op.key (ctrlCode 85)] initInput =
      some { buf := (List.replicate INPUT_BUF 0).set 0 97, r := 0, w := 0,
             e := 4294967295, max := 0 } ∧
    ¬ inv { buf := (List.replicate INPUT_BUF 0).set 0 97, r := 0, w := 0,
            e := 4294967295, max := 0 } := by
  constructor
  · decide
  · decide

set_option maxRecDepth 100000 in
/-- Witness for C1: typing `'a'` then kill-line with `e = max` is a good
run and lands in a state satisfying the invariant. -/
theorem inputRing_invariant_witness :
    inv { buf := (List.replicate INPUT_BUF 0).set 0 97, r := 0, w := 0,
          e := 0, max := 0 } :=
  inputRing_invariant_good_runs [Op.key 97, Op.key (ctrlCode 85)]
    { buf := (List.replicate INPUT_BUF 0).set 0 97, r := 0, w := 0,
      e := 0, max := 0 } (by decide) (by decide)

/-! ### C2: the acceptance condition of the default case -/

/-- C2 (corrected): in the default case, a code is ignored (state and echo
unchanged) exactly when it is zero or `max` has reached the ABSOLUTE
capacity (`input.max < INPUT_BUF`), independently of `r`: space freed by a
reader advancing `r` does not become available.  The claim's condition
`max < r + CAP` is not the one the code enforces (see the
counterexample). -/
theorem insert_accept_absolute (c : Nat) (st : InputS)
    (hP : c ≠ ctrlCode 80) (hU : c ≠ ctrlCode 85) (hH : c ≠ ctrlCode 72)
    (hDel : c ≠ 0x7f) (hup : c ≠ UP) (hdn : c ≠ DOWN) (hlf : c ≠ LEFT)
    (hrt : c ≠ RIGHT) :
    consoleintrStep c st = (st, []) ↔ (c = 0 ∨ INPUT_BUF ≤ st.max) := by
  have hstep : consoleintrStep c st = insertDefault c st := by
    unfold consoleintrStep
    rw [if_neg hP, if_neg hU, if_neg (fun h => h.elim hH hDel),
      if_neg (fun h => h.elim hup hdn), if_neg hlf, if_neg hrt]
  rw [hstep]
  constructor
  · intro hid
    by_contra hcon
    push_neg at hcon
    obtain ⟨hc0, hcap⟩ := hcon
    have hacc : c ≠ 0 ∧ st.max < INPUT_BUF := ⟨hc0, by omega⟩
    unfold insertDefault at hid
    rw [if_pos hacc] at hid
    split_ifs at hid <;>
      exact absurd (congrArg Prod.snd hid) (by simp)
  · intro hig
    unfold insertDefault
    rw [if_neg (fun hacc => by
      rcases hig with h0 | hfull
      · exact hacc.1 h0
      · omega)]

theorem runOps_append (ops1 ops2 : List Op) (st : InputS) :
    runOps (ops1 ++ ops2) st =
      (runOps ops1 st).bind (fun st1 => runOps ops2 st1) := by
  induction ops1 generalizing st with
  | nil => rfl
  | cons op rest ih =>
    show (applyOp op st).bind (runOps (rest ++ ops2)) =
      ((applyOp op st).bind (runOps rest)).bind fun st1 => runOps ops2 st1
    cases applyOp op st with
    | none => rfl
    | some st1 => exact ih st1

theorem runOps_single (op : Op) (st : InputS) :
    runOps [op] st = applyOp op st := by
  show (applyOp op st).bind (runOps []) = applyOp op st
  cases applyOp op st with
  | none => rfl
  | some st1 => rfl

/-- Shifting `e .. max-1` up is a no-op on a full-length buffer when the
region is empty (`e = max`). -/
theorem bufShiftUp_self (buf : List Nat) (e : Nat)
    (h : buf.length = INPUT_BUF) : bufShiftUp buf e e = buf := by
  unfold bufShiftUp
  apply List.ext_getElem
  · rw [List.length_ofFn, h]
  · intro i h1 h2
    simp only [List.getElem_ofFn]
    rw [if_neg (by omega)]
    exact List.getD_eq_getElem buf 0 h2

/-- Inserting the byte 97 with the edit cursor at the write frontier just
writes at `max` and bumps `e` and `max`, provided the buffer is full-length,
below capacity, and the release condition does not fire. -/
theorem insert97_frontier (st : InputS) (hlen : st.buf.length = INPUT_BUF)
    (he : st.e = st.max) (hcap : st.max < INPUT_BUF)
    (hrel : st.max + 1 ≠ (st.r + INPUT_BUF) % M) :
    consoleintrStep 97 st =
      ({ st with buf := st.buf.set st.max 97, e := st.max + 1,
                 max := st.max + 1 }, [97]) := by
  have hins : insertState 97 st =
      { st with buf := st.buf.set st.max 97, e := st.max + 1,
                max := st.max + 1 } := by
    unfold insertState
    rw [if_pos (by decide : ¬(97 = 10))]
    rw [he, bufShiftUp_self st.buf st.max hlen,
      Nat.mod_eq_of_lt (show st.max < INPUT_BUF from hcap),
      uinc_cap st.max (by omega)]
  unfold consoleintrStep
  rw [if_neg (by decide), if_neg (by decide),
    if_neg (by decide : ¬((97:Nat) = ctrlCode 72 ∨ (97:Nat) = 0x7f)),
    if_neg (by decide : ¬((97:Nat) = UP ∨ (97:Nat) = DOWN)),
    if_neg (by decide), if_neg (by decide)]
  unfold insertDefault
  rw [if_pos (⟨by decide, hcap⟩ : (97:Nat) ≠ 0 ∧ st.max < INPUT_BUF)]
  rw [show normCR 97 = 97 from rfl, hins]
  rw [if_neg (fun hc => by
    rcases hc with hc | hc | hc
    · exact absurd hc (by decide)
    · exact absurd hc (by decide)
    · exact hrel hc)]

/-- Filling one more cell of the partially filled buffer. -/
theorem set_fill (k : Nat) (hk : k < INPUT_BUF) :
    (List.replicate k 97 ++ List.replicate (INPUT_BUF - k) (0:Nat)).set k 97 =
      List.replicate (k+1) 97 ++ List.replicate (INPUT_BUF - (k+1)) 0 := by
  apply List.ext_getElem
  · simp
    unfold INPUT_BUF at *
    omega
  · intro i h1 h2
    rw [List.getElem_set]
    by_cases hik : i < k
    · rw [if_neg (by omega), List.getElem_append_left (by simpa using hik),
        List.getElem_append_left (by simp; omega), List.getElem_replicate,
        List.getElem_replicate]
    · by_cases hik2 : i = k
      · rw [if_pos (by omega), List.getElem_append_left (by simp; omega),
          List.getElem_replicate]
      · have hlen2 : i < INPUT_BUF := by
          rw [List.length_append, List.length_replicate,
            List.length_replicate] at h2
          unfold INPUT_BUF at *
          omega
        rw [if_neg (by omega),
          List.getElem_append_right (by simp; omega),
          List.getElem_append_right (by simp; omega),
          List.getElem_replicate, List.getElem_replicate]

/-- The state reached by typing `k` copies of the byte 97 from boot. -/
theorem runKeysA : ∀ k : Nat, k ≤ 127 →
    runOps (List.replicate k (Op.key 97)) initInput =
      some { buf := List.replicate k 97 ++ List.replicate (INPUT_BUF - k) 0,
             r := 0, w := 0, e := k, max := k } := by
  intro k
  induction k with
  | zero => intro _; rfl
  | succ k ih =>
    intro hk
    rw [List.replicate_succ', runOps_append, ih (by omega)]
    show runOps [Op.key 97]
        { buf := List.replicate k 97 ++ List.replicate (INPUT_BUF - k) 0,
          r := 0, w := 0, e := k, max := k } = _
    rw [runOps_single]
    rw [show applyOp (Op.key 97)
        { buf := List.replicate k 97 ++ List.replicate (INPUT_BUF - k) 0,
          r := 0, w := 0, e := k, max := k } =
      some (consoleintrStep 97
        { buf := List.replicate k 97 ++ List.replicate (INPUT_BUF - k) 0,
          r := 0, w := 0, e := k, max := k }).1 from rfl]
    rw [insert97_frontier _
      (by show (List.replicate k 97 ++
            List.replicate (INPUT_BUF - k) (0:Nat)).length = INPUT_BUF
          rw [List.length_append, List.length_replicate,
            List.length_replicate]
          unfold INPUT_BUF at *
          omega)
      rfl
      (by show k < INPUT_BUF
          unfold INPUT_BUF at *
          omega)
      (by show k + 1 ≠ (0 + INPUT_BUF) % M
          unfold INPUT_BUF M at *
          omega)]
    show some ({ buf :=
                   (List.replicate k 97 ++
                     List.replicate (INPUT_BUF - k) 0).set k 97,
                 r := 0, w := 0, e := k + 1, max := k + 1 } : InputS) = _
    rw [set_fill k (by unfold INPUT_BUF at *; omega)]

set_option maxRecDepth 1000000 in
set_option maxHeartbeats 1000000 in
/-- The final newline and the 128-byte read from the filled state. -/
theorem runTailB :
    runOps [Op.key 10, Op.read 128]
        { buf := List.replicate 127 97 ++ List.replicate (INPUT_BUF - 127) 0,
          r := 0, w := 0, e := 127, max := 127 } =
      some { buf := (List.replicate INPUT_BUF 97).set 127 10, r := 128,
             w := 128, e := 128, max := 128 } := by
  decide

set_option maxRecDepth 1000000 in
/-- Counterexample for C2: after a full 128-byte line (127 `'a'`s and a
newline) is typed and then entirely consumed by a read, the state has
`r = w = e = max = 128`; the code `98` is non-zero and `max < r + CAP`
holds (128 < 256), yet the code is ignored — acceptance is not relative
to `r`. -/
theorem insert_accept_counterexample :
    runOps (List.replicate 127 (Op.key 97) ++ [Op.key 10, Op.read 128])
        initInput =
      some { buf := (List.replicate INPUT_BUF 97).set 127 10, r := 128,
             w := 128, e := 128, max := 128 } ∧
    ((98 : Nat) ≠ 0 ∧
      ({ buf := (List.replicate INPUT_BUF 97).set 127 10, r := 128,
         w := 128, e := 128, max := 128 } : InputS).max <
        ({ buf := (List.replicate INPUT_BUF 97).set 127 10, r := 128,
           w := 128, e := 128, max := 128 } : InputS).r + INPUT_BUF) ∧
    consoleintrStep 98
        { buf := (List.replicate INPUT_BUF 97).set 127 10, r := 128,
          w := 128, e := 128, max := 128 } =
      ({ buf := (List.replicate INPUT_BUF 97).set 127 10, r := 128,
         w := 128, e := 128, max := 128 }, []) := by
  refine ⟨?_, ⟨by decide, by decide⟩, by decide⟩
  rw [runOps_append, runKeysA 127 (by omega)]
  exact runTailB

/-- Witness for C2 at the boot state: a printable byte is accepted (the
step is not the identity), matching `max < INPUT_BUF`. -/
theorem insert_accept_witness :
    consoleintrStep 97 initInput = (initInput, []) ↔
      ((97 : Nat) = 0 ∨ INPUT_BUF ≤ initInput.max) :=
  insert_accept_absolute 97 initInput (by decide) (by decide) (by decide)
    (by decide) (by decide) (by decide) (by decide) (by decide)

/-! ### Helper lemmas for the consoleread loop -/

theorem getD_set_ne (l : List Nat) (i j a : Nat) (h : i ≠ j) :
    (l.set i a).getD j 0 = l.getD j 0 := by
  simp [List.getD_eq_getElem?_getD, List.getElem?_set_ne h]

theorem getD_set_self (l : List Nat) (i a : Nat) (h : i < l.length) :
    (l.set i a).getD i 0 = a := by
  simp [List.getD_eq_getElem?_getD, List.getElem?_set_self, h]

theorem lineChars_length (buf : List Nat) :
    ∀ k r, (lineChars buf r k).length = k := by
  intro k
  induction k with
  | zero => intro r; rfl
  | succ k ih =>
    intro r
    show (buf.getD (r % INPUT_BUF) 0 :: lineChars buf (r + 1) k).length = k + 1
    rw [List.length_cons, ih]

theorem lineChars_set_ne (buf : List Nat) (idx c : Nat) :
    ∀ k r, (∀ j, j < k → (r + j) % INPUT_BUF ≠ idx) →
      lineChars (buf.set idx c) r k = lineChars buf r k := by
  intro k
  induction k with
  | zero => intro r _; rfl
  | succ k ih =>
    intro r hne
    show (buf.set idx c).getD (r % INPUT_BUF) 0 ::
        lineChars (buf.set idx c) (r + 1) k = _
    have h0 : r % INPUT_BUF ≠ idx := by
      have := hne 0 (by omega)
      rwa [Nat.add_zero] at this
    rw [getD_set_ne buf idx _ c (fun h => h0 h.symm),
      ih (r + 1) (fun j hj => by
        rw [show r + 1 + j = r + (j + 1) from by omega]
        exact hne (j + 1) (by omega))]
    rfl

/-- `consoleread`'s loop consumes a run of `k` plain characters (no EOF
code, no newline) one per iteration, appending them to the output. -/
theorem readLoop_skip :
    ∀ (k : Nat) (buf : List Nat) (r w e mx n target : Nat) (acc : List Nat),
      w < M → r + k ≤ w → k ≤ n →
      (∀ j, j < k → buf.getD ((r + j) % INPUT_BUF) 0 ≠ ctrlCode 68 ∧
                    buf.getD ((r + j) % INPUT_BUF) 0 ≠ 10) →
      readLoop ⟨buf, r, w, e, mx⟩ n target acc =
        readLoop ⟨buf, r + k, w, e, mx⟩ (n - k) target
          (acc ++ lineChars buf r k) := by
  intro k
  induction k with
  | zero =>
    intro buf r w e mx n target acc _ _ _ _
    show readLoop ⟨buf, r, w, e, mx⟩ n target acc =
      readLoop ⟨buf, r + 0, w, e, mx⟩ (n - 0) target (acc ++ [])
    rw [Nat.add_zero, Nat.sub_zero, List.append_nil]
  | succ k ih =>
    intro buf r w e mx n target acc hw hrw hkn hplain
    obtain ⟨m, rfl⟩ : ∃ m, n = m + 1 := ⟨n - 1, by omega⟩
    have h0 := hplain 0 (by omega)
    rw [Nat.add_zero] at h0
    rw [readLoop.eq_2]
    have hrn : (⟨buf, r, w, e, mx⟩ : InputS).r ≠ (⟨buf, r, w, e, mx⟩ : InputS).w :=
      by show r ≠ w; omega
    rw [if_neg hrn,
      if_neg (show ¬((⟨buf, r, w, e, mx⟩ : InputS).buf.getD
        ((⟨buf, r, w, e, mx⟩ : InputS).r % INPUT_BUF) 0 = ctrlCode 68) from h0.1),
      if_neg (show ¬((⟨buf, r, w, e, mx⟩ : InputS).buf.getD
        ((⟨buf, r, w, e, mx⟩ : InputS).r % INPUT_BUF) 0 = 10) from h0.2)]
    show readLoop ⟨buf, uinc r, w, e, mx⟩ m target
        (acc ++ [buf.getD (r % INPUT_BUF) 0]) = _
    rw [uinc_small r (by omega)]
    rw [ih buf (r + 1) w e mx m target _ hw (by omega) (by omega)
      (fun j hj => by
        rw [show r + 1 + j = r + (j + 1) from by omega]
        exact hplain (j + 1) (by omega))]
    rw [show r + 1 + k = r + (k + 1) from by omega, Nat.succ_sub_succ,
      List.append_assoc]
    rfl

/-- The loop stops at an EOF code and pushes `r` back when characters were
already copied (`n < target`). -/
theorem readLoop_stop_eof_push (buf : List Nat) (r w e mx m target : Nat)
    (acc : List Nat) (hw : w < M) (hrw : r < w)
    (heof : buf.getD (r % INPUT_BUF) 0 = ctrlCode 68) (ht : m + 1 < target) :
    readLoop ⟨buf, r, w, e, mx⟩ (m + 1) target acc =
      some (⟨buf, r, w, e, mx⟩, acc, m + 1) := by
  rw [readLoop.eq_2, if_neg (show ¬((⟨buf, r, w, e, mx⟩ : InputS).r =
      (⟨buf, r, w, e, mx⟩ : InputS).w) from by show ¬(r = w); omega),
    if_pos (show (⟨buf, r, w, e, mx⟩ : InputS).buf.getD
      ((⟨buf, r, w, e, mx⟩ : InputS).r % INPUT_BUF) 0 = ctrlCode 68 from heof),
    if_pos ht]
  show some ((⟨buf, udec (uinc r), w, e, mx⟩ : InputS), acc, m + 1) = _
  rw [udec_uinc r (by omega)]

/-- The loop stops at an EOF code met as the very first character of the
call (`n = target`): the marker is consumed. -/
theorem readLoop_stop_eof_first (buf : List Nat) (r w e mx m target : Nat)
    (acc : List Nat) (hw : w < M) (hrw : r < w)
    (heof : buf.getD (r % INPUT_BUF) 0 = ctrlCode 68)
    (ht : ¬(m + 1 < target)) :
    readLoop ⟨buf, r, w, e, mx⟩ (m + 1) target acc =
      some (⟨buf, r + 1, w, e, mx⟩, acc, m + 1) := by
  rw [readLoop.eq_2, if_neg (show ¬((⟨buf, r, w, e, mx⟩ : InputS).r =
      (⟨buf, r, w, e, mx⟩ : InputS).w) from by show ¬(r = w); omega),
    if_pos (show (⟨buf, r, w, e, mx⟩ : InputS).buf.getD
      ((⟨buf, r, w, e, mx⟩ : InputS).r % INPUT_BUF) 0 = ctrlCode 68 from heof),
    if_neg ht]
  show some ((⟨buf, uinc r, w, e, mx⟩ : InputS), acc, m + 1) = _
  rw [uinc_small r (by omega)]

/-- The loop copies a newline and stops. -/
theorem readLoop_stop_newline (buf : List Nat) (r w e mx m target : Nat)
    (acc : List Nat) (hw : w < M) (hrw : r < w)
    (hnl : buf.getD (r % INPUT_BUF) 0 = 10) :
    readLoop ⟨buf, r, w, e, mx⟩ (m + 1) target acc =
      some (⟨buf, r + 1, w, e, mx⟩, acc ++ [10], m) := by
  rw [readLoop.eq_2, if_neg (show ¬((⟨buf, r, w, e, mx⟩ : InputS).r =
      (⟨buf, r, w, e, mx⟩ : InputS).w) from by show ¬(r = w); omega),
    if_neg (show ¬((⟨buf, r, w, e, mx⟩ : InputS).buf.getD
      ((⟨buf, r, w, e, mx⟩ : InputS).r % INPUT_BUF) 0 = ctrlCode 68) from by
        rw [hnl]; decide),
    if_pos (show (⟨buf, r, w, e, mx⟩ : InputS).buf.getD
      ((⟨buf, r, w, e, mx⟩ : InputS).r % INPUT_BUF) 0 = 10 from hnl)]
  show some ((⟨buf, uinc r, w, e, mx⟩ : InputS), acc ++ [buf.getD (r % INPUT_BUF) 0], m) = _
  rw [uinc_small r (by omega), hnl]

/-! ### C3: EOF semantics of consoleread -/

/-- C3 (confirmed): if the EOF code `C('D')` is the very first character a
read call consumes, the call returns with `n` unchanged — `target - n = 0`
bytes — and `r` advanced past the marker (it is consumed); if the EOF code
is met after `k ≥ 1` characters were copied in the same call, the call
returns those `k` characters (final `n` is `n - k`, so `target - (n - k) =
k` bytes) and pushes `r` back so it stays just before the marker, and the
next read call then consumes the marker and returns 0 bytes. -/
theorem consoleread_eof_semantics (st : InputS) :
    (∀ n, invStrong st → 0 < n → st.r ≠ st.w →
      st.buf.getD (st.r % INPUT_BUF) 0 = ctrlCode 68 →
      consoleread st n = some ({ st with r := st.r + 1 }, [], n)) ∧
    (∀ k n, invStrong st → 1 ≤ k → st.r + k < st.w → k < n →
      (∀ j, j < k → st.buf.getD ((st.r + j) % INPUT_BUF) 0 ≠ ctrlCode 68 ∧
        st.buf.getD ((st.r + j) % INPUT_BUF) 0 ≠ 10) →
      st.buf.getD ((st.r + k) % INPUT_BUF) 0 = ctrlCode 68 →
      consoleread st n =
        some ({ st with r := st.r + k }, lineChars st.buf st.r k, n - k) ∧
      n - (n - k) = k ∧
      (∀ m, 0 < m → consoleread { st with r := st.r + k } m =
        some ({ st with r := st.r + k + 1 }, [], m))) := by
  obtain ⟨buf, r, w, e, mx⟩ := st
  constructor
  · intro n hinv hn hrw heof
    obtain ⟨h1, h2, h3, h4⟩ := hinv
    have h1' : r ≤ w := h1
    have h2' : w ≤ e := h2
    have h3' : e ≤ mx := h3
    have h4' : mx ≤ INPUT_BUF := h4
    have hrw' : r ≠ w := hrw
    have heof' : buf.getD (r % INPUT_BUF) 0 = ctrlCode 68 := heof
    obtain ⟨m, rfl⟩ : ∃ m, n = m + 1 := ⟨n - 1, by omega⟩
    show readLoop ⟨buf, r, w, e, mx⟩ (m + 1) (m + 1) [] = _
    rw [readLoop_stop_eof_first buf r w e mx m (m + 1) []
      (by have := le_capacity_lt_M w (by omega); omega)
      (by omega) heof' (by omega)]
  · intro k n hinv hk hkw hkn hplain heof
    obtain ⟨h1, h2, h3, h4⟩ := hinv
    have h1' : r ≤ w := h1
    have h2' : w ≤ e := h2
    have h3' : e ≤ mx := h3
    have h4' : mx ≤ INPUT_BUF := h4
    have hkw' : r + k < w := hkw
    have hplain' : ∀ j, j < k →
        buf.getD ((r + j) % INPUT_BUF) 0 ≠ ctrlCode 68 ∧
        buf.getD ((r + j) % INPUT_BUF) 0 ≠ 10 := hplain
    have heof' : buf.getD ((r + k) % INPUT_BUF) 0 = ctrlCode 68 := heof
    have hwM : w < M :=
      by have := le_capacity_lt_M w (by omega); omega
    refine ⟨?_, by omega, ?_⟩
    · show readLoop ⟨buf, r, w, e, mx⟩ n n [] = _
      rw [readLoop_skip k buf r w e mx n n [] hwM (by omega) (by omega)
        hplain', List.nil_append]
      obtain ⟨m, hm⟩ : ∃ m, n - k = m + 1 := ⟨n - k - 1, by omega⟩
      rw [hm]
      rw [readLoop_stop_eof_push buf (r + k) w e mx m n
        (lineChars buf r k) hwM (by omega) heof' (by omega)]
    · intro m hm
      obtain ⟨m1, rfl⟩ : ∃ m1, m = m1 + 1 := ⟨m - 1, by omega⟩
      show readLoop ⟨buf, r + k, w, e, mx⟩ (m1 + 1) (m1 + 1) [] = _
      rw [readLoop_stop_eof_first buf (r + k) w e mx m1 (m1 + 1) []
        hwM (by omega) heof' (by omega)]

/-- Witness for C3: with the released input `h`, `i`, `C('D')` (the EOF
released immediately on arrival), a 5-byte read returns the two characters
and keeps the marker; the next read returns 0 bytes and consumes it. -/
theorem consoleread_eof_semantics_witness :
    consoleread ⟨[104, 105, 4] ++ List.replicate 125 0, 0, 3, 3, 3⟩ 5 =
      some (⟨[104, 105, 4] ++ List.replicate 125 0, 2, 3, 3, 3⟩,
        [104, 105], 3) ∧
    consoleread ⟨[104, 105, 4] ++ List.replicate 125 0, 2, 3, 3, 3⟩ 7 =
      some (⟨[104, 105, 4] ++ List.replicate 125 0, 3, 3, 3, 3⟩, [], 7) := by
  have h := (consoleread_eof_semantics
      ⟨[104, 105, 4] ++ List.replicate 125 0, 0, 3, 3, 3⟩).2 2 5
    (by decide) (by omega) (by decide) (by omega)
    (by decide) (by decide)
  refine ⟨?_, ?_⟩
  · rw [h.1]
    rfl
  · have h2 := h.2.2 7 (by omega)
    rw [h2]

/-! ### C4: a completed line is released and read back exactly -/

/-- Appending the newline of the default case: it is stored at `max`
(mod capacity) and the line is released (`w = e = max + 1`). -/
theorem insert_newline (st : InputS) (hcap : st.max < INPUT_BUF) :
    consoleintrStep 10 st =
      ({ st with buf := st.buf.set (st.max % INPUT_BUF) 10,
                 w := st.max + 1, e := st.max + 1, max := st.max + 1 },
       [10]) := by
  have hins : insertState 10 st =
      { st with buf := st.buf.set (st.max % INPUT_BUF) 10,
                max := st.max + 1 } := by
    unfold insertState
    rw [if_neg (by decide : ¬¬((10:Nat) = 10))]
    rw [show (10:Nat) % 256 = 10 from rfl, uinc_cap st.max (by omega)]
  unfold consoleintrStep
  rw [if_neg (by decide), if_neg (by decide),
    if_neg (by decide : ¬((10:Nat) = ctrlCode 72 ∨ (10:Nat) = 0x7f)),
    if_neg (by decide : ¬((10:Nat) = UP ∨ (10:Nat) = DOWN)),
    if_neg (by decide), if_neg (by decide)]
  unfold insertDefault
  rw [if_pos (⟨by decide, hcap⟩ : (10:Nat) ≠ 0 ∧ st.max < INPUT_BUF)]
  rw [show normCR 10 = 10 from rfl, hins]
  rw [if_pos (Or.inl rfl)]

/-- C4 (confirmed): when a newline arrives with the buffer below capacity,
exactly the characters from the prior `w` through the newline are released
(`w` and `e` are set to the new `max`, the newline is echoed), and — when
the prior released data was fully consumed (`r = w`) and the pending line
holds no newline or EOF code — a subsequent read requesting at least
`max + 1 - w` bytes returns exactly those characters ending in the
newline: the loop stops right after copying it, and the returned byte
count equals the number of characters copied. -/
theorem newline_release_and_read (st : InputS)
    (hinv : invStrong st) (hlen : st.buf.length = INPUT_BUF)
    (hrw : st.r = st.w) (hcap : st.max < INPUT_BUF)
    (hplain : ∀ j, j < st.max - st.w →
      st.buf.getD ((st.w + j) % INPUT_BUF) 0 ≠ ctrlCode 68 ∧
      st.buf.getD ((st.w + j) % INPUT_BUF) 0 ≠ 10) :
    (consoleintrStep 10 st).1.w = st.max + 1 ∧
    (consoleintrStep 10 st).1.e = st.max + 1 ∧
    (consoleintrStep 10 st).2 = [10] ∧
    (∀ n, st.max + 1 - st.w ≤ n →
      consoleread (consoleintrStep 10 st).1 n =
        some ({ (consoleintrStep 10 st).1 with r := st.max + 1 },
          lineChars st.buf st.w (st.max - st.w) ++ [10],
          n - (st.max + 1 - st.w)) ∧
      n - (n - (st.max + 1 - st.w)) = st.max + 1 - st.w ∧
      (lineChars st.buf st.w (st.max - st.w) ++ [10]).length =
        st.max + 1 - st.w) := by
  obtain ⟨buf, r, w, e, mx⟩ := st
  obtain ⟨h1, h2, h3, h4⟩ := hinv
  have h1' : r ≤ w := h1
  have h2' : w ≤ e := h2
  have h3' : e ≤ mx := h3
  have h4' : mx ≤ INPUT_BUF := h4
  have hlen' : buf.length = INPUT_BUF := hlen
  have hplain0 : ∀ j, j < mx - w →
      buf.getD ((w + j) % INPUT_BUF) 0 ≠ ctrlCode 68 ∧
      buf.getD ((w + j) % INPUT_BUF) 0 ≠ 10 := hplain
  rw [insert_newline ⟨buf, r, w, e, mx⟩ hcap]
  have hcap' : mx < INPUT_BUF := hcap
  have hmod : mx % INPUT_BUF = mx := Nat.mod_eq_of_lt hcap'
  have hrw' : r = w := hrw
  subst hrw'
  refine ⟨rfl, rfl, rfl, ?_⟩
  intro n hn
  have hn' : mx + 1 - r ≤ n := hn
  have hwM : mx + 1 < M :=
    le_capacity_lt_M mx (by show mx ≤ INPUT_BUF; omega)
  have hk : r + (mx - r) = mx := by omega
  have hplain2 : ∀ j, j < mx - r →
      (buf.set (mx % INPUT_BUF) 10).getD ((r + j) % INPUT_BUF) 0 ≠ ctrlCode 68 ∧
      (buf.set (mx % INPUT_BUF) 10).getD ((r + j) % INPUT_BUF) 0 ≠ 10 := by
    intro j hj
    rw [hmod, getD_set_ne buf mx _ 10 (by
      rw [Nat.mod_eq_of_lt (show r + j < INPUT_BUF by omega)]
      omega)]
    exact hplain0 j hj
  refine ⟨?_, by omega, by rw [List.length_append, lineChars_length]; show mx - r + 1 = mx + 1 - r; omega⟩
  show readLoop ⟨buf.set (mx % INPUT_BUF) 10, r, mx + 1, mx + 1, mx + 1⟩
      n n [] = _
  rw [readLoop_skip (mx - r) (buf.set (mx % INPUT_BUF) 10) r (mx + 1)
    (mx + 1) (mx + 1) n n [] hwM (by omega) (by omega) hplain2]
  rw [hk]
  obtain ⟨m, hm⟩ : ∃ m, n - (mx - r) = m + 1 := ⟨n - (mx - r) - 1, by omega⟩
  rw [hm]
  rw [readLoop_stop_newline (buf.set (mx % INPUT_BUF) 10) mx (mx + 1)
    (mx + 1) (mx + 1) m n _ hwM (by omega)
    (by rw [hmod]; exact getD_set_self buf mx 10 (by omega))]
  rw [List.nil_append,
    lineChars_set_ne buf (mx % INPUT_BUF) 10 (mx - r) r (fun j hj => by
      rw [hmod, Nat.mod_eq_of_lt (show r + j < INPUT_BUF by omega)]
      omega)]
  rw [show m = n - (mx + 1 - r) from by omega]

set_option maxRecDepth 100000 in
/-- Witness for C4: typing `h`, `i` then newline releases `hi\n` and a
10-byte read returns exactly those 3 bytes. -/
theorem newline_release_and_read_witness :
    (consoleintrStep 10 ⟨[104, 105] ++ List.replicate 126 0, 0, 0, 2, 2⟩).1.w
      = 3 ∧
    consoleread
        (consoleintrStep 10 ⟨[104, 105] ++ List.replicate 126 0, 0, 0, 2, 2⟩).1
        10 =
      some ({ (consoleintrStep 10
          ⟨[104, 105] ++ List.replicate 126 0, 0, 0, 2, 2⟩).1 with r := 3 },
        [104, 105, 10], 7) := by
  have h := newline_release_and_read
    ⟨[104, 105] ++ List.replicate 126 0, 0, 0, 2, 2⟩
    (by decide) (by decide) rfl (by decide) (by decide)
  refine ⟨h.1, ?_⟩
  have h4 := (h.2.2.2 10 (by decide)).1
  rw [h4]
  rfl

/-! ### C9: unknown format directives are echoed -/

/-- C9 (confirmed): in `cprintf`, a `%` followed by a byte that is not one
of `d`, `x`, `p`, `s`, `%` (nor the string terminator) emits exactly the
two characters `%` and that byte, and the scan continues. -/
theorem cprintf_unknown_directive (b : Nat) (rest : List Nat) (args : List Varg)
    (h0 : b % 256 ≠ 0) (hd : b % 256 ≠ 100) (hx : b % 256 ≠ 120)
    (hp : b % 256 ≠ 112) (hs : b % 256 ≠ 115) (hpc : b % 256 ≠ 37) :
    cprintfGo (37 :: b :: rest) args = 37 :: b % 256 :: cprintfGo rest args := by
  rw [cprintfGo.eq_3, if_neg (by decide : ¬(37 % 256 = 0)),
    if_neg (by decide : ¬(37 % 256 ≠ 37)), if_neg h0, if_neg hd,
    if_neg (fun h => h.elim hx hp), if_neg hs, if_neg hpc]

/-- Witness for C9: `"%z"` emits `%z`. -/
theorem cprintf_unknown_directive_witness :
    cprintfGo [37, 122] [] = [37, 122] := by
  rw [cprintf_unknown_directive 122 [] [] (by decide) (by decide) (by decide)
    (by decide) (by decide) (by decide)]
  rfl

/-! ### C10: a trailing lone percent is dropped silently -/

/-- C10 (confirmed): a format string that ends in a bare `%` (the scan
reading the terminator right after the `%`) emits nothing for that `%`:
the output is exactly the literal prefix, with no `%` echoed. -/
theorem cprintf_trailing_percent (pre : List Nat) (args : List Varg)
    (h : ∀ x ∈ pre, x % 256 ≠ 0 ∧ x % 256 ≠ 37) :
    cprintfGo (pre ++ [37]) args = pre.map (fun x => x % 256) := by
  induction pre with
  | nil => rfl
  | cons x xs ih =>
    obtain ⟨hx0, hx37⟩ := h x (List.mem_cons_self x xs)
    have hrest : ∀ y ∈ xs, y % 256 ≠ 0 ∧ y % 256 ≠ 37 :=
      fun y hy => h y (List.mem_cons_of_mem x hy)
    rw [List.cons_append, cprintfGo_literal x (xs ++ [37]) args hx0 hx37, ih hrest]
    rfl

/-- Witness for C10: `"hi%"` emits exactly `hi`. -/
theorem cprintf_trailing_percent_witness :
    cprintfGo ([104, 105] ++ [37]) [] = [104, 105] := by
  rw [cprintf_trailing_percent [104, 105] [] (by decide)]
  rfl

end Console
